import Mathlib

/-!
Shallow embedding of django-transmeta (src/transmeta/__init__.py).

The module defines helper functions over field names
(get_real_fieldname, get_field_language, canonical_fieldname), the
runtime fallback resolver (default_value) and the metaclass TransMeta
whose __new__ expands each translatable field into one stored field per
configured language.

Modelling conventions:
- A Django field object is the record Field below: the attributes the
  code inspects or mutates (null, blank, default-is-NOT_PROVIDED,
  verbose_name, name, original_fieldname) plus an inert payload ftype
  standing for the field class and all remaining options, which
  copy.copy preserves verbatim.
- The attrs mapping of the class body is an association list in
  declaration order, modelling the OrderedDict of __new__: assignment to
  an existing key overwrites in place, assignment to a fresh key appends,
  del removes.
- Django settings and the active translation are a Config record plus an
  explicit currentLang argument (get_language()).
- Instance attribute state for the resolver is a function from attribute
  name to Option String; none models both an absent attribute and a
  Python None value (getattr with default None conflates the two), and
  Python truthiness of the stored string is the predicate truthy.
- ImproperlyConfigured is an error value carrying the message string;
  raising is the Except error branch.
- LazyString(proxy, lang) is modelled by its string rendering
  "%s (%s)" % (proxy, lang).
-/

namespace Transmeta

/-- One Django model field object, restricted to the attributes that
transmeta reads or writes.  hasDefault is false exactly when the field
default is NOT_PROVIDED.  verboseName is none when the object has no
verbose_name attribute.  ftype is an inert payload standing for the
field class and every option transmeta never touches. -/
structure Field where
  null : Bool
  blank : Bool
  hasDefault : Bool
  verboseName : Option String
  name : String
  ftype : String
  originalFieldname : Option String := none
  deriving Repr, DecidableEq

/-- A value bound in the class body attrs mapping: a recognized model
field, the read-only property object property(default_value(f)) for
field name f (no setter exists, so it is read-only), or any other
attribute (method, plain value, ...). -/
inductive Attr where
  | field : Field → Attr
  | prop : String → Attr
  | other : Attr
  deriving Repr, DecidableEq

/-- Global configuration: the language catalog
(TRANSMETA_LANGUAGES or settings.LANGUAGES, as (code, label) pairs),
mandatory_language(), fallback_language() and settings.LANGUAGE_CODE. -/
structure Config where
  languages : List (String × String)
  mandatoryLang : String
  fallbackLang : String
  defaultLang : String
  deriving Repr, DecidableEq

/-- Extend the first piece of a split result with one leading
character. -/
def consHead (c : Char) : List (List Char) → List (List Char)
  | [] => [[c]]
  | h :: t => (c :: h) :: t

/-- Python s.split(sep-char): split a character list on a one-character
separator.  Total, never returns the empty list. -/
def splitOnChar (sep : Char) : List Char → List (List Char)
  | [] => [[]]
  | c :: rest =>
    if c = sep then [] :: splitOnChar sep rest
    else consHead c (splitOnChar sep rest)

/-- Python get_language().split(hyphen)[0]: the prefix of the language
code before the first hyphen. -/
def truncLang (s : String) : String :=
  String.mk (s.data.takeWhile (fun c => c ≠ '-'))

/-- Derived per-language field name, the format string "%s_%s". -/
def realFieldname (field lang : String) : String :=
  field ++ "_" ++ lang

/-- get_real_fieldname(field, lang): when lang is None the current
language code truncated at its first hyphen is used. -/
def getRealFieldname (currentLang field : String) (lang : Option String) : String :=
  match lang with
  | none => realFieldname field (truncLang currentLang)
  | some l => realFieldname field l

/-- get_field_language(real_field): real_field.split(underscore)[-1]. -/
def getFieldLanguage (realField : String) : String :=
  String.mk ((splitOnChar '_' realField.data).getLastD [])

/-- canonical_fieldname(db_field): getattr(db_field,
original_fieldname, db_field.name). -/
def canonicalFieldname (dbField : Field) : String :=
  dbField.originalFieldname.getD dbField.name

/-- Python truthiness of a possibly absent string attribute: none
(absent, or stored None) and the empty string are falsy. -/
def truthy : Option String → Bool
  | none => false
  | some s => !s.isEmpty

/-- default_value(field) closure body default_value_func(self): walk the
full current language, its two-character truncation, the fallback
language, then settings.LANGUAGE_CODE, returning the first truthy value,
or the (possibly absent) value under the last name. -/
def defaultValueFunc (field : String) (cfg : Config) (currentLang : String)
    (inst : String → Option String) : Option String :=
  let attname := fun (x : String) => getRealFieldname currentLang field (some x)
  if truthy (inst (attname currentLang)) then inst (attname currentLang)
  else if truthy (inst (attname (currentLang.take 2))) then
    inst (attname (currentLang.take 2))
  else
    let defaultLanguage := cfg.fallbackLang
    if truthy (inst (attname defaultLanguage)) then inst (attname defaultLanguage)
    else inst (attname cfg.defaultLang)

/-- A direct base class of the model under construction, as __new__
inspects it: whether it has a _meta object, whether that meta is
abstract, and its translatable_fields registry when the attribute has
been set. -/
structure Base where
  hasMeta : Bool
  abstract : Bool
  translatableFields : Option (List String)
  deriving Repr, DecidableEq

/-- ImproperlyConfigured carrying its message. -/
structure ConfigError where
  msg : String
  deriving Repr, DecidableEq

/-- The value found under the key translate (or translate_mandatory) on
the inner Meta class: absent, a tuple of field names, or present but of
some non-tuple type (for instance a list). -/
inductive TransDecl where
  | undeclared : TransDecl
  | tuple : List String → TransDecl
  | nontuple : TransDecl
  deriving Repr, DecidableEq

/-- The translate and translate_mandatory declarations carried by the
inner Meta class of the model body. -/
structure MetaDecls where
  translate : TransDecl
  translate_mandatory : TransDecl
  deriving Repr, DecidableEq

/-- The constructed class: its final attribute mapping and the
_meta.translatable_fields registry written on it. -/
structure NewClass where
  attrs : List (String × Attr)
  translatableFields : List String
  deriving Repr, DecidableEq

/-- attrs[k] lookup in the ordered mapping. -/
def lookupAttr (attrs : List (String × Attr)) (k : String) : Option Attr :=
  (attrs.find? (fun p => p.1 = k)).map Prod.snd

/-- attrs[k] = v on the ordered mapping: overwrite in place when the key
exists, append otherwise (OrderedDict assignment). -/
def odSet : List (String × Attr) → String → Attr → List (String × Attr)
  | [], k, v => [(k, v)]
  | p :: rest, k, v =>
    if p.1 = k then (k, v) :: rest else p :: odSet rest k v

/-- del attrs[k] on the ordered mapping. -/
def odDel (attrs : List (String × Attr)) (k : String) : List (String × Attr) :=
  attrs.filter (fun p => p.1 ≠ k)

/-- TransMeta.get_translatable(attrs, meta_field): absent gives
((), False); a tuple is extracted (and removed from Meta, a side effect
on the Meta class the model keeps nothing of); any other type raises
ImproperlyConfigured with a fixed message. -/
def getTranslatable : TransDecl → Except ConfigError (List String × Bool)
  | .undeclared => .ok ([], false)
  | .tuple names => .ok (names, true)
  | .nontuple => .error ⟨"Meta's translate attribute must be a tuple"⟩

/-- The message of TransMeta.check_field_in_model for a missing or
unrecognized field. -/
def missingFieldMsg (field modelName : String) : String :=
  "There is no field " ++ field ++ " in model " ++ modelName ++
    ", as specified in Meta's translate attribute"

/-- TransMeta.check_field_in_model(field, attrs, name) fused with the
subsequent original_attr = attrs[field] read: raises unless the name is
bound in the current attrs mapping to a recognized field object, and
otherwise returns that field object. -/
def checkFieldInModel (field : String) (attrs : List (String × Attr))
    (modelName : String) : Except ConfigError Field :=
  match lookupAttr attrs field with
  | some (.field f) => .ok f
  | _ => .error ⟨missingFieldMsg field modelName⟩

/-- The two conditional mutations of the inner loop of __new__: set
null to True when the copy is non-null with default NOT_PROVIDED, and
set blank to True when the copy is non-blank. -/
def relaxAttr (a : Field) : Field :=
  let b := if !a.null && !a.hasDefault then { a with null := true } else a
  if !b.blank then { b with blank := true } else b

/-- The verbose-name decoration of the inner loop: when the copy has a
verbose_name attribute, wrap it in LazyString(verbose_name, lang_name),
modelled by the rendering of that object. -/
def decorateVerbose (a : Field) (langName : String) : Field :=
  match a.verboseName with
  | some v => { a with verboseName := some (v ++ " (" ++ langName ++ ")") }
  | none => a

/-- Body of the per-language loop of TransMeta.__new__: copy the
original field, set original_fieldname, relax null (when the original is
non-null with no explicit default) and blank for every language other
than the mandatory one provided the field sits in the plain translate
tuple, and decorate the verbose name with the language label. -/
def mkLangAttr (origAttr : Field) (field langCode langName mandLang : String)
    (inFields : Bool) : Field :=
  let a1 := { origAttr with originalFieldname := some field }
  decorateVerbose
    (if langCode ≠ mandLang then (if inFields then relaxAttr a1 else a1) else a1)
    langName

/-- One pass of the inner language loop: insert every generated
per-language field of one original field into attrs. -/
def applyField (cfg : Config) (attrs : List (String × Attr)) (field : String)
    (origAttr : Field) (inFields : Bool) : List (String × Attr) :=
  cfg.languages.foldl
    (fun acc lang =>
      odSet acc (realFieldname field lang.1)
        (.field (mkLangAttr origAttr field lang.1 lang.2 cfg.mandatoryLang inFields)))
    attrs

/-- The outer loop of TransMeta.__new__ over fields + mandatory: check
the field, expand it per language, delete the original attribute, and
rebind the original name to property(default_value(field)). -/
def expandLoop (cfg : Config) (modelName : String) (fieldsList : List String) :
    List String → List (String × Attr) → Except ConfigError (List (String × Attr))
  | [], attrs => .ok attrs
  | f :: rest, attrs => do
    let origAttr ← checkFieldInModel f attrs modelName
    let attrs1 := applyField cfg attrs f origAttr (decide (f ∈ fieldsList))
    let attrs2 := odDel attrs1 f
    let attrs3 := odSet attrs2 f (.prop f)
    expandLoop cfg modelName fieldsList rest attrs3

/-- TransMeta.__new__(cls, name, bases, attrs): extract both tuples;
when neither is declared, keep attrs and inherit the registry by
concatenating the registries of the abstract direct bases; otherwise run
the expansion loop over fields + mandatory and record
mandatory + fields as the registry of the new class. -/
def transmetaNew (cfg : Config) (modelName : String) (bases : List Base)
    (attrs : List (String × Attr)) (meta : MetaDecls) :
    Except ConfigError NewClass := do
  let (fields, trans1) ← getTranslatable meta.translate
  let (mandatory, trans2) ← getTranslatable meta.translate_mandatory
  if trans1 || trans2 then
    let finalAttrs ← expandLoop cfg modelName fields (fields ++ mandatory) attrs
    return { attrs := finalAttrs, translatableFields := mandatory ++ fields }
  else
    return { attrs := attrs,
             translatableFields :=
               (bases.filter (fun b => b.hasMeta && b.abstract)).foldl
                 (fun acc b => acc ++ b.translatableFields.getD []) [] }

/-- The per-language expansion products of one original field, in
catalog order: the entries the inner loop of __new__ writes. -/
def derivedEntries (cfg : Config) (f : String) (origAttr : Field) (inFields : Bool) :
    List (String × Attr) :=
  cfg.languages.map
    (fun lang =>
      (realFieldname f lang.1,
       Attr.field (mkLangAttr origAttr f lang.1 lang.2 cfg.mandatoryLang inFields)))

/-- Resolution chain of the specification, in its words: full current
language code, its two-character truncation, the configured fallback
language, the global default language code. -/
def specChain (field currentLang fallbackLang defaultLang : String) : List String :=
  [realFieldname field currentLang, realFieldname field (currentLang.take 2),
   realFieldname field fallbackLang, realFieldname field defaultLang]

/-- The specification reading rule: the first truthy value along the
chain wins; when none is truthy the result is the value stored under the
last-resort name. -/
def firstNonEmptyValue (inst : String → Option String) (chain : List String)
    (lastName : String) : Option String :=
  match chain.find? (fun n => truthy (inst n)) with
  | some n => inst n
  | none => inst lastName

/-- The configuration of the worked example of the specification:
languages en and fr, fallback language fr, default language en. -/
def exampleCfg : Config :=
  { languages := [("en", "English"), ("fr", "French")],
    mandatoryLang := "en", fallbackLang := "fr", defaultLang := "en" }

/-- The instance state of the worked example: field_en stores the empty
string, field_fr stores Bonjour, field_en-US is absent (stores None). -/
def exampleResolverState : String → Option String := fun n =>
  if n = "field_fr" then some "Bonjour"
  else if n = "field_en" then some "" else none

/-- Whether an attrs lookup result is a recognized field object, the
test of check_field_in_model. -/
def isFieldAttr : Option Attr → Bool
  | some (.field _) => true
  | _ => false

/-- A strict sample field declaration: not null, not blank, no explicit
default, no verbose name. -/
def strictField : Field :=
  { null := false, blank := false, hasDefault := false,
    verboseName := none, name := "title", ftype := "CharField" }

/-- A sample configuration: catalog en and fr, mandatory, fallback and
default language all en. -/
def sampleCfg : Config :=
  { languages := [("en", "English"), ("fr", "French")],
    mandatoryLang := "en", fallbackLang := "en", defaultLang := "en" }

/-- A configuration whose catalog carries a language code containing an
underscore. -/
def underscoreCfg : Config :=
  { languages := [("en_US", "American English")],
    mandatoryLang := "en_US", fallbackLang := "en_US", defaultLang := "en_US" }

@[simp] theorem getRealFieldname_some (cur f x : String) :
    getRealFieldname cur f (some x) = realFieldname f x := rfl

/-- C1: reading the virtual accessor returns the first truthy value in
the order full current language code, its two-character truncation, the
configured fallback language, the global default language code; and on
the worked example (current language en-US, fallback fr, default en,
instance values field_en empty, field_fr Bonjour, field_en-US absent)
the accessor returns Bonjour. -/
theorem c1_fallback_resolution_order (field : String) (cfg : Config)
    (currentLang : String) (inst : String → Option String) :
    defaultValueFunc field cfg currentLang inst
      = firstNonEmptyValue inst
          (specChain field currentLang cfg.fallbackLang cfg.defaultLang)
          (realFieldname field cfg.defaultLang)
    ∧ defaultValueFunc "field" exampleCfg "en-US" exampleResolverState
      = some "Bonjour" := by
  constructor
  · simp only [defaultValueFunc, firstNonEmptyValue, specChain,
      getRealFieldname_some, List.find?]
    by_cases h1 : truthy (inst (realFieldname field currentLang)) <;>
      by_cases h2 : truthy (inst (realFieldname field (currentLang.take 2))) <;>
        by_cases h3 : truthy (inst (realFieldname field cfg.fallbackLang)) <;>
          by_cases h4 : truthy (inst (realFieldname field cfg.defaultLang)) <;>
            simp [h1, h2, h3, h4]
  · rfl

/-- C2: when all four language variants along the chain are empty or
absent, the accessor never raises and returns exactly the (possibly
absent) value stored under the global default language name. -/
theorem c2_empty_chain_returns_default_slot (field : String) (cfg : Config)
    (currentLang : String) (inst : String → Option String)
    (h1 : truthy (inst (realFieldname field currentLang)) = false)
    (h2 : truthy (inst (realFieldname field (currentLang.take 2))) = false)
    (h3 : truthy (inst (realFieldname field cfg.fallbackLang)) = false)
    (_h4 : truthy (inst (realFieldname field cfg.defaultLang)) = false) :
    defaultValueFunc field cfg currentLang inst
      = inst (realFieldname field cfg.defaultLang) := by
  simp [defaultValueFunc, getRealFieldname_some, h1, h2, h3]

/-- Witness for C2: a fully untranslated instance resolves to the value
stored under the default language name (here: absent). -/
theorem c2_empty_chain_witness :
    defaultValueFunc "title" sampleCfg "en-US" (fun _ => none)
      = (fun _ => (none : Option String)) (realFieldname "title" sampleCfg.defaultLang) :=
  c2_empty_chain_returns_default_slot "title" sampleCfg "en-US" (fun _ => none)
    rfl rfl rfl rfl

theorem takeWhile_append_all {α : Type} {p : α → Bool} (l1 l2 : List α)
    (h : ∀ a ∈ l1, p a = true) :
    (l1 ++ l2).takeWhile p = l1 ++ l2.takeWhile p := by
  induction l1 with
  | nil => simp
  | cons a t ih =>
    simp [List.takeWhile_cons, h a (List.mem_cons_self a t),
      ih (fun x hx => h x (List.mem_cons_of_mem a hx))]

theorem truncLang_before_hyphen (pre post : String)
    (h : ∀ c ∈ pre.data, c ≠ '-') :
    truncLang (pre ++ "-" ++ post) = pre := by
  unfold truncLang
  have hdata : (pre ++ "-" ++ post).data = pre.data ++ '-' :: post.data := by
    simp [String.data_append]
  rw [hdata, takeWhile_append_all pre.data ('-' :: post.data)
      (fun a ha => decide_eq_true (h a ha))]
  simp [List.takeWhile_cons]

/-- C10: get_real_fieldname with no explicit language builds the derived
name from the current UI language truncated at its first hyphen, so it
never produces a regional-variant derived name; in particular current
language en-US yields field_en. -/
theorem c10_current_language_truncation (f pre post : String)
    (h : ∀ c ∈ pre.data, c ≠ '-') :
    getRealFieldname (pre ++ "-" ++ post) f none = realFieldname f pre
    ∧ getRealFieldname "en-US" "field" none = "field_en"
    ∧ getRealFieldname "en-US" "field" none ≠ "field_en-US" := by
  refine ⟨?_, rfl, by decide⟩
  unfold getRealFieldname
  rw [truncLang_before_hyphen pre post h]

/-- Witness for C10: the derived name for current language en-US with no
explicit language argument is field_en. -/
theorem c10_current_language_truncation_witness :
    getRealFieldname ("en" ++ "-" ++ "US") "field" none = realFieldname "field" "en" :=
  (c10_current_language_truncation "field" "en" "US" (by decide)).1

theorem consHead_ne_nil (c : Char) (l : List (List Char)) : consHead c l ≠ [] := by
  cases l <;> simp [consHead]

theorem splitOnChar_ne_nil (sep : Char) (l : List Char) : splitOnChar sep l ≠ [] := by
  cases l with
  | nil => simp [splitOnChar]
  | cons c rest =>
    by_cases h : c = sep <;> simp [splitOnChar, h, consHead_ne_nil]

theorem consHead_append (c : Char) (l m : List (List Char)) (h : l ≠ []) :
    consHead c (l ++ m) = consHead c l ++ m := by
  cases l with
  | nil => exact absurd rfl h
  | cons a t => simp [consHead]

theorem splitOnChar_no_sep (sep : Char) (l : List Char) (h : sep ∉ l) :
    splitOnChar sep l = [l] := by
  induction l with
  | nil => rfl
  | cons c rest ih =>
    have hc : ¬c = sep := fun e => h (e ▸ List.mem_cons_self c rest)
    have hr : sep ∉ rest := fun m => h (List.mem_cons_of_mem c m)
    simp [splitOnChar, hc, ih hr, consHead]

theorem splitOnChar_append_sep (sep : Char) (l1 l2 : List Char) :
    splitOnChar sep (l1 ++ sep :: l2) = splitOnChar sep l1 ++ splitOnChar sep l2 := by
  induction l1 with
  | nil => simp [splitOnChar]
  | cons c rest ih =>
    by_cases hc : c = sep
    · simp [splitOnChar, hc, ih]
    · simp only [List.cons_append, splitOnChar, hc, ite_false, List.append_eq,
        if_false]
      rw [ih, consHead_append c _ _ (splitOnChar_ne_nil sep rest)]

theorem getLastD_irrel {α : Type} (b : α) (t : List α) (d1 d2 : α) :
    (b :: t).getLastD d1 = (b :: t).getLastD d2 := by
  cases t with
  | nil => rfl
  | cons c t2 =>
    rw [List.getLastD_cons]
    conv_rhs => rw [List.getLastD_cons]

theorem getLastD_append {α : Type} (x : List α) (b : α) (t : List α) (d : α) :
    (x ++ b :: t).getLastD d = (b :: t).getLastD d := by
  induction x generalizing d with
  | nil => rfl
  | cons a x2 ih =>
    rw [List.cons_append, List.getLastD_cons, ih a]
    exact getLastD_irrel b t a d

theorem getFieldLanguage_of_realFieldname (f c : String) (h : '_' ∉ c.data) :
    getFieldLanguage (realFieldname f c) = c := by
  unfold getFieldLanguage realFieldname
  have hdata : (f ++ "_" ++ c).data = f.data ++ '_' :: c.data := by
    simp [String.data_append]
  rw [hdata, splitOnChar_append_sep, splitOnChar_no_sep _ _ h]
  rw [getLastD_append (splitOnChar '_' f.data) c.data [] []]
  rfl

theorem decorateVerbose_originalFieldname (a : Field) (ln : String) :
    (decorateVerbose a ln).originalFieldname = a.originalFieldname := by
  obtain ⟨nl, bl, hd, vn, nm, ft, ofn⟩ := a
  cases vn <;> rfl

theorem relaxAttr_originalFieldname (a : Field) :
    (relaxAttr a).originalFieldname = a.originalFieldname := by
  unfold relaxAttr
  dsimp only
  repeat' split
  all_goals rfl

theorem mkLangAttr_originalFieldname (origAttr : Field)
    (f lc ln ml : String) (inF : Bool) :
    (mkLangAttr origAttr f lc ln ml inF).originalFieldname = some f := by
  unfold mkLangAttr
  rw [decorateVerbose_originalFieldname]
  by_cases h1 : lc ≠ ml <;> cases inF <;>
    simp [h1, relaxAttr_originalFieldname]

/-- Counterexample for C8: with a catalog language code containing an
underscore, get_field_language does not invert get_real_fieldname: the
derived name title_en_US splits on underscores and yields US. -/
theorem c8_roundtrip_counterexample :
    ("en_US", "American English") ∈ underscoreCfg.languages
    ∧ getFieldLanguage (getRealFieldname "en_US" "title" (some "en_US")) = "US"
    ∧ getFieldLanguage (getRealFieldname "en_US" "title" (some "en_US")) ≠ "en_US" := by
  refine ⟨by decide, by decide, by decide⟩

/-- C8 amended: for every original field name and every language code
that contains no underscore, the round-trip holds:
get_field_language(get_real_fieldname(field, lang)) equals lang, and
canonical_fieldname recovers the original field name from any generated
field. -/
theorem c8_roundtrip_amended (cur f c ln ml : String) (origAttr : Field)
    (inF : Bool) (h : '_' ∉ c.data) :
    getFieldLanguage (getRealFieldname cur f (some c)) = c
    ∧ canonicalFieldname (mkLangAttr origAttr f c ln ml inF) = f := by
  constructor
  · rw [getRealFieldname_some]
    exact getFieldLanguage_of_realFieldname f c h
  · unfold canonicalFieldname
    rw [mkLangAttr_originalFieldname]
    rfl

/-- Witness for C8 amended: the round-trip at field title and language
code en of the sample catalog. -/
theorem c8_roundtrip_amended_witness :
    getFieldLanguage (getRealFieldname "en" "title" (some "en")) = "en"
    ∧ canonicalFieldname (mkLangAttr strictField "title" "en" "English" "en" true)
      = "title" :=
  c8_roundtrip_amended "en" "title" "en" "English" "en" strictField true (by decide)

theorem decorateVerbose_null (a : Field) (ln : String) :
    (decorateVerbose a ln).null = a.null := by
  obtain ⟨nl, bl, hd, vn, nm, ft, ofn⟩ := a
  cases vn <;> rfl

theorem decorateVerbose_blank (a : Field) (ln : String) :
    (decorateVerbose a ln).blank = a.blank := by
  obtain ⟨nl, bl, hd, vn, nm, ft, ofn⟩ := a
  cases vn <;> rfl

theorem relaxAttr_null (a : Field) :
    (relaxAttr a).null
      = (if a.null = false ∧ a.hasDefault = false then true else a.null) := by
  obtain ⟨nl, bl, hd, vn, nm, ft, ofn⟩ := a
  cases nl <;> cases bl <;> cases hd <;> rfl

theorem relaxAttr_blank (a : Field) : (relaxAttr a).blank = true := by
  obtain ⟨nl, bl, hd, vn, nm, ft, ofn⟩ := a
  cases nl <;> cases bl <;> cases hd <;> rfl

theorem mkLangAttr_relaxed (A : Field) (f lc ln ml : String) (h : lc ≠ ml) :
    (mkLangAttr A f lc ln ml true).null
      = (if A.null = false ∧ A.hasDefault = false then true else A.null)
    ∧ (mkLangAttr A f lc ln ml true).blank = true := by
  refine ⟨?_, ?_⟩ <;>
    simp [mkLangAttr, h, decorateVerbose_null, decorateVerbose_blank,
      relaxAttr_null, relaxAttr_blank]

theorem mkLangAttr_strict_notInFields (A : Field) (f lc ln ml : String) :
    (mkLangAttr A f lc ln ml false).null = A.null
    ∧ (mkLangAttr A f lc ln ml false).blank = A.blank := by
  by_cases h : lc ≠ ml <;> refine ⟨?_, ?_⟩ <;>
    simp [mkLangAttr, h, decorateVerbose_null, decorateVerbose_blank]

theorem mkLangAttr_strict_mandatory (A : Field) (f ln ml : String) (inF : Bool) :
    (mkLangAttr A f ml ln ml inF).null = A.null
    ∧ (mkLangAttr A f ml ln ml inF).blank = A.blank := by
  refine ⟨?_, ?_⟩ <;>
    simp [mkLangAttr, decorateVerbose_null, decorateVerbose_blank]

/-- C4: for a field listed in translate and not in translate_mandatory,
the generated field of every non-mandatory language has null set to True
exactly when the original was non-null with no explicit default and has
blank set to True unconditionally, while the generated field of the
mandatory language keeps the original null and blank constraints. -/
theorem c4_nullability_relaxation (A : Field) (f lc ln ml : String)
    (fields mdt : List String) (hin : f ∈ fields) (_hnot : f ∉ mdt) :
    (lc ≠ ml →
      (mkLangAttr A f lc ln ml (decide (f ∈ fields))).null
        = (if A.null = false ∧ A.hasDefault = false then true else A.null)
      ∧ (mkLangAttr A f lc ln ml (decide (f ∈ fields))).blank = true)
    ∧ (lc = ml →
      (mkLangAttr A f lc ln ml (decide (f ∈ fields))).null = A.null
      ∧ (mkLangAttr A f lc ln ml (decide (f ∈ fields))).blank = A.blank) := by
  rw [decide_eq_true hin]
  exact ⟨fun h => mkLangAttr_relaxed A f lc ln ml h,
    fun h => h ▸ mkLangAttr_strict_mandatory A f ln ml true⟩

/-- Witness for C4: the strict sample field listed in translate only,
expanded for non-mandatory language fr with mandatory language en. -/
theorem c4_nullability_relaxation_witness :
    (mkLangAttr strictField "title" "fr" "French" "en"
        (decide ("title" ∈ (["title"] : List String)))).null
      = (if strictField.null = false ∧ strictField.hasDefault = false then true
         else strictField.null)
    ∧ (mkLangAttr strictField "title" "fr" "French" "en"
        (decide ("title" ∈ (["title"] : List String)))).blank = true :=
  (c4_nullability_relaxation strictField "title" "fr" "French" "en"
    ["title"] [] (by decide) (by decide)).1 (by decide)

/-- Counterexample for C5: a field listed only in translate_mandatory is
not relaxed: over the sample catalog with mandatory language en, the
generated field title_fr of the strict sample field keeps null = False
and blank = False although fr is not the mandatory language. -/
theorem c5_mandatory_counterexample :
    (transmetaNew sampleCfg "M" [] [("title", Attr.field strictField)]
        ⟨.undeclared, .tuple ["title"]⟩).toOption.bind
        (fun nc => lookupAttr nc.attrs (realFieldname "title" "fr"))
      = some (.field { strictField with originalFieldname := some "title" })
    ∧ ({ strictField with originalFieldname := some "title" } : Field).null = false
    ∧ ({ strictField with originalFieldname := some "title" } : Field).blank = false
    ∧ "fr" ≠ sampleCfg.mandatoryLang := by
  refine ⟨by decide, rfl, rfl, by decide⟩

/-- C5 amended: a field listed only in translate_mandatory (hence not a
member of the translate tuple) keeps the original null and blank
constraints in every generated per-language field; the relaxation rule
applies only to members of translate. -/
theorem c5_mandatory_keeps_strictness (A : Field) (f lc ln ml : String)
    (fields : List String) (h : f ∉ fields) :
    (mkLangAttr A f lc ln ml (decide (f ∈ fields))).null = A.null
    ∧ (mkLangAttr A f lc ln ml (decide (f ∈ fields))).blank = A.blank := by
  rw [decide_eq_false h]
  exact mkLangAttr_strict_notInFields A f lc ln ml

/-- Witness for C5 amended: the strict sample field listed only in
translate_mandatory keeps null = False and blank = False for fr. -/
theorem c5_mandatory_keeps_strictness_witness :
    (mkLangAttr strictField "title" "fr" "French" "en"
        (decide ("title" ∈ ([] : List String)))).null = strictField.null
    ∧ (mkLangAttr strictField "title" "fr" "French" "en"
        (decide ("title" ∈ ([] : List String)))).blank = strictField.blank :=
  c5_mandatory_keeps_strictness strictField "title" "fr" "French" "en" []
    (by decide)

/-- Counterexample for C6: when translate_mandatory is the non-tuple
declaration, class construction raises the fixed message
Meta translate attribute must be a tuple, whose text does not contain
the offending attribute name translate_mandatory. -/
theorem c6_nontuple_counterexample :
    transmetaNew sampleCfg "M" [] [("title", Attr.field strictField)]
        ⟨.tuple ["title"], .nontuple⟩
      = .error ⟨"Meta's translate attribute must be a tuple"⟩
    ∧ ¬ List.IsInfix "translate_mandatory".data
        ("Meta's translate attribute must be a tuple" : String).data := by
  refine ⟨rfl, by decide⟩

/-- C6 amended: when translate or translate_mandatory is present but not
a tuple, class construction raises a Configuration Error before any
field expansion occurs, always carrying the fixed message
Meta translate attribute must be a tuple, which names the offending
attribute only when that attribute is translate. -/
theorem c6_nontuple_raises (cfg : Config) (modelName : String)
    (bases : List Base) (attrs : List (String × Attr)) (meta : MetaDecls)
    (h : meta.translate = .nontuple ∨ meta.translate_mandatory = .nontuple) :
    transmetaNew cfg modelName bases attrs meta
      = .error ⟨"Meta's translate attribute must be a tuple"⟩ := by
  obtain ⟨t, tm⟩ := meta
  rcases h with h | h
  · simp only at h
    subst h
    rfl
  · simp only at h
    subst h
    cases t <;> rfl

/-- Witness for C6 amended: a non-tuple translate declaration raises the
configuration error. -/
theorem c6_nontuple_raises_witness :
    transmetaNew sampleCfg "M" [] [("title", Attr.field strictField)]
        ⟨.nontuple, .undeclared⟩
      = .error ⟨"Meta's translate attribute must be a tuple"⟩ :=
  c6_nontuple_raises sampleCfg "M" [] [("title", Attr.field strictField)]
    ⟨.nontuple, .undeclared⟩ (Or.inl rfl)

theorem string_append_left_cancel {s a b : String} (h : s ++ a = s ++ b) :
    a = b := by
  obtain ⟨ls⟩ := s
  obtain ⟨la⟩ := a
  obtain ⟨lb⟩ := b
  have h2 : ls ++ la = ls ++ lb := congrArg String.data h
  rw [List.append_cancel_left h2]

theorem realFieldname_inj (f : String) {a b : String}
    (h : realFieldname f a = realFieldname f b) : a = b := by
  unfold realFieldname at h
  rw [String.append_assoc, String.append_assoc] at h
  exact string_append_left_cancel (string_append_left_cancel h)

theorem realFieldname_ne (f c : String) : realFieldname f c ≠ f := by
  intro h
  have hl := congrArg String.length h
  simp only [realFieldname, String.length_append] at hl
  have hu : ("_" : String).length = 1 := rfl
  omega

theorem odSet_fresh (l : List (String × Attr)) (k : String) (v : Attr)
    (h : k ∉ l.map Prod.fst) : odSet l k v = l ++ [(k, v)] := by
  induction l with
  | nil => rfl
  | cons p t ih =>
    rw [List.map_cons, List.mem_cons] at h
    push_neg at h
    have hp : ¬p.1 = k := fun e => h.1 e.symm
    simp [odSet, hp, ih h.2]

theorem applyField_clean (langs : List (String × String))
    (attrs : List (String × Attr)) (f : String) (A : Field) (ml : String)
    (inF : Bool)
    (hfresh : ∀ l ∈ langs, realFieldname f l.1 ∉ attrs.map Prod.fst)
    (hnd : (langs.map Prod.fst).Nodup) :
    langs.foldl
        (fun acc lang =>
          odSet acc (realFieldname f lang.1)
            (.field (mkLangAttr A f lang.1 lang.2 ml inF)))
        attrs
      = attrs ++ langs.map
          (fun lang =>
            (realFieldname f lang.1,
             Attr.field (mkLangAttr A f lang.1 lang.2 ml inF))) := by
  induction langs generalizing attrs with
  | nil => simp
  | cons l0 rest ih =>
    rw [List.foldl_cons,
      odSet_fresh attrs _ _ (hfresh l0 (List.mem_cons_self l0 rest))]
    rw [List.map_cons] at hnd
    have hl0 : l0.1 ∉ rest.map Prod.fst := (List.nodup_cons.1 hnd).1
    have hrest :
        ∀ l ∈ rest,
          realFieldname f l.1
            ∉ (attrs ++ [(realFieldname f l0.1,
                Attr.field (mkLangAttr A f l0.1 l0.2 ml inF))]).map Prod.fst := by
      intro l hl
      rw [List.map_append, List.mem_append]
      rintro (hc | hc)
      · exact hfresh l (List.mem_cons_of_mem l0 hl) hc
      · simp only [List.map_cons, List.map_nil, List.mem_singleton] at hc
        exact hl0 (realFieldname_inj f hc ▸ List.mem_map_of_mem Prod.fst hl)
    rw [ih _ hrest (List.nodup_cons.1 hnd).2]
    simp [List.append_assoc]

theorem lookupAttr_append_left (l1 l2 : List (String × Attr)) (k : String)
    (h : k ∉ l1.map Prod.fst) : lookupAttr (l1 ++ l2) k = lookupAttr l2 k := by
  induction l1 with
  | nil => rfl
  | cons p t ih =>
    rw [List.map_cons, List.mem_cons] at h
    push_neg at h
    have hp : ¬p.1 = k := fun e => h.1 e.symm
    unfold lookupAttr
    rw [List.cons_append, List.find?_cons_of_neg _ (by simp [hp])]
    exact ih h.2

theorem lookupAttr_derived (langs : List (String × String)) (f : String)
    (A : Field) (ml : String) (inF : Bool) (c nm : String)
    (hnd : (langs.map Prod.fst).Nodup) (hmem : (c, nm) ∈ langs) :
    lookupAttr
        (langs.map
          (fun lang =>
            (realFieldname f lang.1,
             Attr.field (mkLangAttr A f lang.1 lang.2 ml inF))))
        (realFieldname f c)
      = some (.field (mkLangAttr A f c nm ml inF)) := by
  induction langs with
  | nil => cases hmem
  | cons l0 rest ih =>
    rw [List.map_cons] at hnd ⊢
    rcases List.mem_cons.1 hmem with he | hm
    · subst he
      unfold lookupAttr
      rw [List.find?_cons_of_pos _ (by simp)]
      rfl
    · have hc : c ∈ rest.map Prod.fst := List.mem_map_of_mem Prod.fst hm
      have hne : ¬l0.1 = c := fun e => (List.nodup_cons.1 hnd).1 (e ▸ hc)
      unfold lookupAttr
      rw [List.find?_cons_of_neg _
        (by simp; intro e; exact hne (realFieldname_inj f e))]
      exact ih (List.nodup_cons.1 hnd).2 hm

theorem odDel_derived (langs : List (String × String)) (f : String) (A : Field)
    (ml : String) (inF : Bool) :
    odDel
        (langs.map
          (fun lang =>
            (realFieldname f lang.1,
             Attr.field (mkLangAttr A f lang.1 lang.2 ml inF))))
        f
      = langs.map
          (fun lang =>
            (realFieldname f lang.1,
             Attr.field (mkLangAttr A f lang.1 lang.2 ml inF))) := by
  unfold odDel
  rw [List.filter_eq_self]
  intro p hp
  rcases List.mem_map.1 hp with ⟨lang, _, rfl⟩
  simpa using realFieldname_ne f lang.1

theorem not_mem_keys_odDel (attrs : List (String × Attr)) (f : String) :
    f ∉ (odDel attrs f).map Prod.fst := by
  intro h
  rcases List.mem_map.1 h with ⟨p, hp, he⟩
  have := (List.mem_filter.1 hp).2
  simp at this
  exact this he

theorem not_mem_keys_derived (langs : List (String × String)) (f : String)
    (A : Field) (ml : String) (inF : Bool) :
    f ∉ (langs.map
          (fun lang =>
            (realFieldname f lang.1,
             Attr.field (mkLangAttr A f lang.1 lang.2 ml inF)))).map Prod.fst := by
  intro h
  rw [List.map_map] at h
  rcases List.mem_map.1 h with ⟨lang, _, he⟩
  exact realFieldname_ne f lang.1 he

theorem expandLoop_single (cfg : Config) (modelName : String)
    (fieldsList : List String) (f : String) (attrs : List (String × Attr))
    (A : Field) (hA : lookupAttr attrs f = some (.field A))
    (hfresh : ∀ l ∈ cfg.languages, realFieldname f l.1 ∉ attrs.map Prod.fst)
    (hnd : (cfg.languages.map Prod.fst).Nodup) :
    expandLoop cfg modelName fieldsList [f] attrs
      = .ok (odDel attrs f
          ++ derivedEntries cfg f A (decide (f ∈ fieldsList))
          ++ [(f, .prop f)]) := by
  have hcheck : checkFieldInModel f attrs modelName = .ok A := by
    unfold checkFieldInModel
    rw [hA]
  have happly :
      applyField cfg attrs f A (decide (f ∈ fieldsList))
        = attrs ++ derivedEntries cfg f A (decide (f ∈ fieldsList)) := by
    unfold applyField derivedEntries
    exact applyField_clean cfg.languages attrs f A cfg.mandatoryLang _ hfresh hnd
  have hdel :
      odDel (attrs ++ derivedEntries cfg f A (decide (f ∈ fieldsList))) f
        = odDel attrs f ++ derivedEntries cfg f A (decide (f ∈ fieldsList)) := by
    unfold odDel
    rw [List.filter_append]
    unfold derivedEntries
    rw [show (cfg.languages.map
        (fun lang =>
          (realFieldname f lang.1,
           Attr.field (mkLangAttr A f lang.1 lang.2 cfg.mandatoryLang
             (decide (f ∈ fieldsList)))))).filter (fun p => p.1 ≠ f)
      = cfg.languages.map
        (fun lang =>
          (realFieldname f lang.1,
           Attr.field (mkLangAttr A f lang.1 lang.2 cfg.mandatoryLang
             (decide (f ∈ fieldsList)))))
      from odDel_derived cfg.languages f A cfg.mandatoryLang _]
  have hset :
      odSet (odDel attrs f ++ derivedEntries cfg f A (decide (f ∈ fieldsList)))
          f (.prop f)
        = odDel attrs f ++ derivedEntries cfg f A (decide (f ∈ fieldsList))
          ++ [(f, .prop f)] := by
    rw [odSet_fresh, List.append_assoc]
    rw [List.map_append, List.mem_append]
    rintro (h | h)
    · exact not_mem_keys_odDel attrs f h
    · exact not_mem_keys_derived cfg.languages f A cfg.mandatoryLang _ h
  show (do
      let origAttr ← checkFieldInModel f attrs modelName
      let attrs1 := applyField cfg attrs f origAttr (decide (f ∈ fieldsList))
      let attrs2 := odDel attrs1 f
      let attrs3 := odSet attrs2 f (.prop f)
      expandLoop cfg modelName fieldsList [] attrs3) = _
  rw [hcheck]
  show expandLoop cfg modelName fieldsList []
      (odSet (odDel (applyField cfg attrs f A (decide (f ∈ fieldsList))) f) f
        (.prop f)) = _
  rw [happly, hdel, hset]
  rfl

theorem lookupAttr_append_of_found (l1 l2 : List (String × Attr)) (k : String)
    (v : Attr) (h : lookupAttr l1 k = some v) :
    lookupAttr (l1 ++ l2) k = some v := by
  induction l1 with
  | nil => cases h
  | cons p t ih =>
    by_cases hp : p.1 = k
    · unfold lookupAttr at h ⊢
      rw [List.find?_cons_of_pos _ (by simp [hp])] at h
      rw [List.cons_append, List.find?_cons_of_pos _ (by simp [hp])]
      exact h
    · unfold lookupAttr at h ⊢
      rw [List.find?_cons_of_neg _ (by simp [hp])] at h
      rw [List.cons_append, List.find?_cons_of_neg _ (by simp [hp])]
      exact ih h

theorem keys_odDel_subset (attrs : List (String × Attr)) (f k : String)
    (hk : k ∈ (odDel attrs f).map Prod.fst) : k ∈ attrs.map Prod.fst := by
  rcases List.mem_map.1 hk with ⟨p, hp, rfl⟩
  exact List.mem_map_of_mem Prod.fst (List.mem_filter.1 hp).1

/-- C3: a model declaring translate = (f,) over a catalog of N languages
with pairwise distinct codes (and no predeclared attribute under a
derived name) is rewritten so that: the final attrs mapping is the
original attrs minus f, followed by one generated field per catalog
language in catalog order, followed by the property; each catalog
language code owns exactly the entry f_code holding the generated copy
that carries original_fieldname = f; the number of entries under derived
names is exactly N; and the name f is bound exactly to the read-only
property implementing the fallback resolver (no stored field f
remains). -/
theorem c3_field_expansion (cfg : Config) (modelName : String)
    (bases : List Base) (attrs : List (String × Attr)) (f : String) (A : Field)
    (hA : lookupAttr attrs f = some (.field A))
    (hfresh : ∀ l ∈ cfg.languages, realFieldname f l.1 ∉ attrs.map Prod.fst)
    (hnd : (cfg.languages.map Prod.fst).Nodup) :
    transmetaNew cfg modelName bases attrs ⟨.tuple [f], .undeclared⟩
      = .ok ⟨odDel attrs f ++ derivedEntries cfg f A true ++ [(f, Attr.prop f)], [f]⟩
    ∧ (∀ l ∈ cfg.languages,
        lookupAttr
            (odDel attrs f ++ derivedEntries cfg f A true ++ [(f, Attr.prop f)])
            (realFieldname f l.1)
          = some (Attr.field (mkLangAttr A f l.1 l.2 cfg.mandatoryLang true))
        ∧ (mkLangAttr A f l.1 l.2 cfg.mandatoryLang true).originalFieldname
          = some f)
    ∧ ((odDel attrs f ++ derivedEntries cfg f A true ++ [(f, Attr.prop f)]).filter
          (fun p => p.1 ∈ cfg.languages.map (fun l => realFieldname f l.1))).length
        = cfg.languages.length
    ∧ (odDel attrs f ++ derivedEntries cfg f A true ++ [(f, Attr.prop f)]).filter
          (fun p => p.1 = f)
        = [(f, Attr.prop f)] := by
  have hdec : (decide (f ∈ [f])) = true := by simp
  refine ⟨?_, ?_, ?_, ?_⟩
  · have h1 := expandLoop_single cfg modelName [f] f attrs A hA hfresh hnd
    rw [hdec] at h1
    simp only [transmetaNew, getTranslatable, List.append_nil, bind, Except.bind,
      Bool.or_self, if_true]
    rw [h1]
    rfl
  · intro l hl
    refine ⟨?_, mkLangAttr_originalFieldname A f l.1 l.2 cfg.mandatoryLang true⟩
    rw [List.append_assoc]
    rw [lookupAttr_append_left]
    · apply lookupAttr_append_of_found
      unfold derivedEntries
      exact lookupAttr_derived cfg.languages f A cfg.mandatoryLang true l.1 l.2
        hnd hl
    · intro hk
      exact hfresh l hl (keys_odDel_subset attrs f _ hk)
  · rw [List.filter_append, List.filter_append]
    have hX : (odDel attrs f).filter
        (fun p => p.1 ∈ cfg.languages.map (fun l => realFieldname f l.1))
        = [] := by
      rw [List.filter_eq_nil_iff]
      intro p hp hmem
      simp only [decide_eq_true_eq] at hmem
      rcases List.mem_map.1 hmem with ⟨l, hl, he⟩
      have hpk : p.1 ∈ attrs.map Prod.fst :=
        keys_odDel_subset attrs f p.1 (List.mem_map_of_mem Prod.fst hp)
      exact hfresh l hl (he ▸ hpk)
    have hD : (derivedEntries cfg f A true).filter
        (fun p => p.1 ∈ cfg.languages.map (fun l => realFieldname f l.1))
        = derivedEntries cfg f A true := by
      rw [List.filter_eq_self]
      intro p hp
      rcases List.mem_map.1 hp with ⟨lang, hlang, rfl⟩
      simp only [decide_eq_true_eq]
      exact List.mem_map_of_mem (fun l => realFieldname f l.1) hlang
    have hT : ([(f, Attr.prop f)]).filter
        (fun p => p.1 ∈ cfg.languages.map (fun l => realFieldname f l.1))
        = [] := by
      rw [List.filter_eq_nil_iff]
      intro p hp hmem
      rw [List.mem_singleton] at hp
      subst hp
      simp only [decide_eq_true_eq] at hmem
      rcases List.mem_map.1 hmem with ⟨l, _, he⟩
      exact realFieldname_ne f l.1 he
    rw [hX, hD, hT]
    simp [derivedEntries]
  · rw [List.filter_append, List.filter_append]
    have hX : (odDel attrs f).filter (fun p => p.1 = f) = [] := by
      rw [List.filter_eq_nil_iff]
      intro p hp
      have := (List.mem_filter.1 hp).2
      simpa using this
    have hD : (derivedEntries cfg f A true).filter (fun p => p.1 = f) = [] := by
      rw [List.filter_eq_nil_iff]
      intro p hp
      rcases List.mem_map.1 hp with ⟨lang, _, rfl⟩
      simpa using realFieldname_ne f lang.1
    rw [hX, hD]
    simp

/-- Witness for C3: expanding translate = (title,) over the en/fr sample
catalog from a single declared strict field. -/
theorem c3_field_expansion_witness :
    transmetaNew sampleCfg "M" [] [("title", Attr.field strictField)]
        ⟨.tuple ["title"], .undeclared⟩
      = .ok ⟨odDel [("title", Attr.field strictField)] "title"
            ++ derivedEntries sampleCfg "title" strictField true
            ++ [("title", .prop "title")], ["title"]⟩ :=
  (c3_field_expansion sampleCfg "M" [] [("title", Attr.field strictField)]
    "title" strictField rfl (by decide) (by decide)).1

/-- Counterexample for C7: with catalog [en, fr] and declared attrs
containing only the field title, the name title_en listed in translate
is not bound in the model body to any field, yet construction succeeds,
because expanding title first writes a generated field under title_en
and the later check sees the mutated mapping. -/
theorem c7_missing_field_counterexample :
    ("title_en" ∈ (["title", "title_en"] : List String))
    ∧ lookupAttr [("title", Attr.field strictField)] "title_en" = none
    ∧ (transmetaNew sampleCfg "M" [] [("title", Attr.field strictField)]
        ⟨.tuple ["title", "title_en"], .undeclared⟩).toOption.isSome = true := by
  refine ⟨by decide, rfl, rfl⟩

theorem foldl_append_getD (bases2 : List Base) (init : List String) :
    bases2.foldl (fun acc b => acc ++ b.translatableFields.getD []) init
      = init ++ (bases2.map (fun b => b.translatableFields.getD [])).flatten := by
  induction bases2 generalizing init with
  | nil => simp
  | cons b t ih => simp [ih, List.append_assoc]

/-- C7 amended: a listed name that is not bound to a recognized field
object in the attribute mapping at the moment it is checked (the mapping
as already mutated by expansion of earlier-listed names) makes class
construction raise a Configuration Error whose message contains both the
missing field name and the model name.  The first conjunct states this
for the expansion loop at any intermediate mapping, the second for
transmetaNew when the offender heads the translate tuple, and the third
that the message contains both names as substrings. -/
theorem c7_missing_field_amended :
    (∀ (cfg : Config) (modelName : String) (fieldsList rest : List String)
        (f : String) (attrs : List (String × Attr)),
      isFieldAttr (lookupAttr attrs f) = false →
      expandLoop cfg modelName fieldsList (f :: rest) attrs
        = .error ⟨missingFieldMsg f modelName⟩)
    ∧ (∀ (cfg : Config) (modelName : String) (bases : List Base)
        (attrs : List (String × Attr)) (f : String) (rest : List String),
      isFieldAttr (lookupAttr attrs f) = false →
      transmetaNew cfg modelName bases attrs ⟨.tuple (f :: rest), .undeclared⟩
        = .error ⟨missingFieldMsg f modelName⟩)
    ∧ (∀ f modelName : String,
      List.IsInfix f.data (missingFieldMsg f modelName).data
      ∧ List.IsInfix modelName.data (missingFieldMsg f modelName).data) := by
  have hcheck : ∀ (modelName f : String) (attrs : List (String × Attr)),
      isFieldAttr (lookupAttr attrs f) = false →
      checkFieldInModel f attrs modelName
        = .error ⟨missingFieldMsg f modelName⟩ := by
    intro modelName f attrs h
    unfold checkFieldInModel
    cases h0 : lookupAttr attrs f with
    | none => rfl
    | some a =>
      cases a with
      | field F =>
        rw [h0] at h
        simp [isFieldAttr] at h
      | prop s => rfl
      | other => rfl
  have hloop : ∀ (cfg : Config) (modelName : String)
      (fieldsList rest : List String) (f : String)
      (attrs : List (String × Attr)),
      isFieldAttr (lookupAttr attrs f) = false →
      expandLoop cfg modelName fieldsList (f :: rest) attrs
        = .error ⟨missingFieldMsg f modelName⟩ := by
    intro cfg modelName fieldsList rest f attrs h
    unfold expandLoop
    rw [hcheck modelName f attrs h]
    rfl
  refine ⟨hloop, ?_, ?_⟩
  · intro cfg modelName bases attrs f rest h
    simp only [transmetaNew, getTranslatable, List.append_nil, bind,
      Except.bind, Bool.or_self, if_true]
    rw [hloop cfg modelName (f :: rest) rest f attrs h]
    rfl
  · intro f modelName
    constructor
    · exact ⟨("There is no field " : String).data,
        (" in model " ++ modelName
          ++ ", as specified in Meta's translate attribute" : String).data,
        by simp [missingFieldMsg, String.data_append, List.append_assoc]⟩
    · exact ⟨("There is no field " ++ f ++ " in model " : String).data,
        (", as specified in Meta's translate attribute" : String).data,
        by simp [missingFieldMsg, String.data_append, List.append_assoc]⟩

/-- Witness for C7 amended: listing title on a model that declares no
attributes at all raises the configuration error naming title and the
model. -/
theorem c7_missing_field_amended_witness :
    transmetaNew sampleCfg "M" [] [] ⟨.tuple ["title"], .undeclared⟩
      = .error ⟨missingFieldMsg "title" "M"⟩ :=
  c7_missing_field_amended.2.1 sampleCfg "M" [] [] "title" [] rfl

/-- Counterexample for C9: two abstract bases each carrying registry
(title,) make the inheriting model's registry (title, title): the
aggregation concatenates without deduplication. -/
theorem c9_no_dedup_counterexample :
    transmetaNew sampleCfg "M"
        [⟨true, true, some ["title"]⟩, ⟨true, true, some ["title"]⟩] []
        ⟨.undeclared, .undeclared⟩
      = .ok ⟨[], ["title", "title"]⟩
    ∧ (["title", "title"] : List String) ≠ ["title"] := ⟨rfl, by decide⟩

/-- C9 amended: a model declaring either tuple directly gets registry
mandatory ++ fields, mandatory first, an undeclared tuple contributing
nothing (first three conjuncts: both tuples declared, translate only,
translate_mandatory only); a model declaring neither gets the plain
concatenation, duplicates preserved, of the registries of its abstract
direct bases in base order; and the inheritance example of the
specification holds: an abstract base declaring translate = (title,)
yields registry (title,), and a concrete subclass declaring neither
tuple over that base exposes registry (title,). -/
theorem c9_registry_amended :
    (∀ (cfg : Config) (modelName : String) (bases : List Base)
        (attrs : List (String × Attr)) (fields mdt : List String)
        (nc : NewClass),
      transmetaNew cfg modelName bases attrs ⟨.tuple fields, .tuple mdt⟩
        = .ok nc →
      nc.translatableFields = mdt ++ fields)
    ∧ (∀ (cfg : Config) (modelName : String) (bases : List Base)
        (attrs : List (String × Attr)) (fields : List String)
        (nc : NewClass),
      transmetaNew cfg modelName bases attrs ⟨.tuple fields, .undeclared⟩
        = .ok nc →
      nc.translatableFields = fields)
    ∧ (∀ (cfg : Config) (modelName : String) (bases : List Base)
        (attrs : List (String × Attr)) (mdt : List String)
        (nc : NewClass),
      transmetaNew cfg modelName bases attrs ⟨.undeclared, .tuple mdt⟩
        = .ok nc →
      nc.translatableFields = mdt)
    ∧ (∀ (cfg : Config) (modelName : String) (bases : List Base)
        (attrs : List (String × Attr)),
      transmetaNew cfg modelName bases attrs ⟨.undeclared, .undeclared⟩
        = .ok ⟨attrs,
            ((bases.filter (fun b => b.hasMeta && b.abstract)).map
              (fun b => b.translatableFields.getD [])).flatten⟩)
    ∧ Except.map (fun nc => nc.translatableFields)
        (transmetaNew sampleCfg "AbstractBase" []
          [("title", Attr.field strictField)] ⟨.tuple ["title"], .undeclared⟩)
      = .ok ["title"]
    ∧ transmetaNew sampleCfg "Concrete" [⟨true, true, some ["title"]⟩] []
        ⟨.undeclared, .undeclared⟩
      = .ok ⟨[], ["title"]⟩ := by
  refine ⟨?_, ?_, ?_, ?_, rfl, rfl⟩
  · intro cfg modelName bases attrs fields mdt nc h
    simp only [transmetaNew, getTranslatable, bind, Except.bind, Bool.or_self,
      if_true] at h
    cases hE : expandLoop cfg modelName fields (fields ++ mdt) attrs with
    | error e =>
      rw [hE] at h
      cases h
    | ok a =>
      rw [hE] at h
      injection h with h2
      rw [← h2]
  · intro cfg modelName bases attrs fields nc h
    simp only [transmetaNew, getTranslatable, bind, Except.bind, Bool.or_false,
      if_true] at h
    cases hE : expandLoop cfg modelName fields (fields ++ []) attrs with
    | error e =>
      rw [hE] at h
      cases h
    | ok a =>
      rw [hE] at h
      injection h with h2
      rw [← h2]
      exact List.nil_append fields
  · intro cfg modelName bases attrs mdt nc h
    simp only [transmetaNew, getTranslatable, bind, Except.bind, Bool.false_or,
      if_true] at h
    cases hE : expandLoop cfg modelName [] ([] ++ mdt) attrs with
    | error e =>
      rw [hE] at h
      cases h
    | ok a =>
      rw [hE] at h
      injection h with h2
      rw [← h2]
      exact List.append_nil mdt
  · intro cfg modelName bases attrs
    have hf := foldl_append_getD
      (bases.filter (fun b => b.hasMeta && b.abstract)) []
    rw [List.nil_append] at hf
    calc
      transmetaNew cfg modelName bases attrs ⟨.undeclared, .undeclared⟩
          = .ok ⟨attrs,
              (bases.filter (fun b => b.hasMeta && b.abstract)).foldl
                (fun acc b => acc ++ b.translatableFields.getD []) []⟩ := rfl
      _ = _ := by rw [hf]

/-- Witness for C9 amended: a model declaring only
translate_mandatory = (title,) gets registry (title,), the mandatory
tuple concatenated with the absent fields tuple. -/
theorem c9_registry_amended_witness :
    NewClass.translatableFields
        ⟨[("title_en",
           Attr.field { strictField with originalFieldname := some "title" }),
          ("title_fr",
           Attr.field { strictField with originalFieldname := some "title" }),
          ("title", Attr.prop "title")], ["title"]⟩
      = ["title"] :=
  c9_registry_amended.2.2.1 sampleCfg "M" [] [("title", Attr.field strictField)]
    ["title"]
    ⟨[("title_en",
       Attr.field { strictField with originalFieldname := some "title" }),
      ("title_fr",
       Attr.field { strictField with originalFieldname := some "title" }),
      ("title", Attr.prop "title")], ["title"]⟩ rfl

end Transmeta
